import Mathlib

/-!
Verification of the `kuserspace::List<T>` thread-safe doubly-linked container
(`src/include/List.h`, `src/lib/List.cpp`).

Shallow embedding. A list state records the forward node chain reachable from
`head` (each node as a pair of a node identity and its payload), the stored
element count (`std::atomic<size_t> count`, kept as a `Nat` with explicit
arithmetic modulo `2 ^ 64`), the next fresh node identity (`std::make_shared`
always yields a new node), and the number of nodes currently held in the
`NodeAllocator` free list.  The `prev` back-references are represented by
adjacency in the chain: every operation of the source maintains
`prev(next(n)) = n`, so the chain sequence determines the whole structure;
`tail` is the last element of the chain.  Locks are modelled sequentially:
blocking operations always proceed, and the `try_*` family takes the outcome
of `std::try_to_lock` as an explicit boolean input.  Exceptions
(`std::out_of_range("List is empty")`, the spec's `EmptyContainerAccess`)
are modelled with `Except`; a throwing operation returns no successor state,
matching the source, which throws before performing any mutation.
-/

namespace Kuserspace

/-- `size_t` modulus: `count` is a 64-bit unsigned counter. -/
def U64 : Nat := 2 ^ 64

/-- `count++` on a `size_t`. -/
def incCount (c : Nat) : Nat := (c + 1) % U64

/-- `count--` on a `size_t` (wraps around at zero). -/
def decCount (c : Nat) : Nat := (c + (U64 - 1)) % U64

/-- The error raised by `front`, `back`, `pop_front`, `pop_back` on an empty
container (`throw std::out_of_range("List is empty")`, called
`EmptyContainerAccess` in the specification). -/
inductive ListError : Type
  | emptyContainerAccess
deriving DecidableEq

/-- State of one `List<T>`: the forward chain from `head` (node identity and
payload per node; `tail` is the last entry), the stored `count`, the next
fresh node identity, and the size of the `NodeAllocator` free list. -/
structure ListState (α : Type) where
  nodes : List (Nat × α)
  count : Nat
  freshId : Nat
  pool : Nat
deriving DecidableEq

variable {α : Type}

/-- The sequence of payloads, in forward-iteration order. -/
def values (s : ListState α) : List α := s.nodes.map Prod.snd

/-- A default-constructed list: `head = tail = nullptr`, `count = 0`,
a fresh allocator whose free list is empty. -/
def emptyList : ListState α := ⟨[], 0, 0, 0⟩

/-- `NodeAllocator<T>::deallocate` (List.h:49-58), effect on the free-list
size: the node is pushed onto the free list while `nodes.size() < POOL_SIZE`
(1024), otherwise simply released. -/
def poolDealloc (p : Nat) : Nat := if p < 1024 then p + 1 else p

/-- `List<T>::push_front` (List.cpp:182-208): allocate a fresh node
(`create_node` uses `std::make_shared`, never the pool), link it before
`head`, increment `count`. -/
def pushFront (s : ListState α) (v : α) : ListState α :=
  { s with nodes := (s.freshId, v) :: s.nodes,
           count := incCount s.count,
           freshId := s.freshId + 1 }

/-- `List<T>::push_back` (List.cpp:210-236): allocate a fresh node, link it
after `tail`, increment `count`. -/
def pushBack (s : ListState α) (v : α) : ListState α :=
  { s with nodes := s.nodes ++ [(s.freshId, v)],
           count := incCount s.count,
           freshId := s.freshId + 1 }

/-- Element-wise `push_back` of a whole sequence (used by the copy
constructor, `sort`, and the initializer-list constructor). -/
def pushBackAll (s : ListState α) (l : List α) : ListState α :=
  l.foldl pushBack s

/-- `List<T>::front` (List.cpp:145-152): throws when `head == nullptr`,
otherwise returns `head->data`.  Note the guard is on `head`, not on
`count`. -/
def front (s : ListState α) : Except ListError α :=
  match s.nodes with
  | [] => .error .emptyContainerAccess
  | x :: _ => .ok x.2

/-- `List<T>::back` (List.cpp:163-179): throws when `tail == nullptr`,
otherwise returns `tail->data`. -/
def back (s : ListState α) : Except ListError α :=
  match s.nodes.getLast? with
  | none => .error .emptyContainerAccess
  | some x => .ok x.2

/-- `List<T>::pop_front` (List.cpp:238-253): throws when `head == nullptr`;
otherwise advances `head`, unlinks the old head node, and decrements `count`.
The node is released when its last strong reference is dropped; the code
never calls `NodeAllocator::deallocate`, so `pool` is untouched. -/
def popFront (s : ListState α) : Except ListError (ListState α) :=
  match s.nodes with
  | [] => .error .emptyContainerAccess
  | _ :: rest => .ok { s with nodes := rest, count := decCount s.count }

/-- `List<T>::pop_back` (List.cpp:255-270): throws when `tail == nullptr`;
otherwise moves `tail` to its predecessor, unlinks the old tail, decrements
`count`.  As in `pop_front`, the allocator pool is never touched. -/
def popBack (s : ListState α) : Except ListError (ListState α) :=
  match s.nodes.getLast? with
  | none => .error .emptyContainerAccess
  | some _ => .ok { s with nodes := s.nodes.dropLast, count := decCount s.count }

/-- Insert a node immediately before the first chain node whose identity is
`id` (the linking step of `List<T>::insert`, List.cpp:281-291).  When no
chain node has identity `id` the iterator refers to a node of some other
list; the source would then rewire that foreign node, leaving this list's
own chain unchanged. -/
def insertBefore : List (Nat × α) → Nat → Nat × α → List (Nat × α)
  | [], _, _ => []
  | x :: xs, id, n => if x.1 = id then n :: x :: xs else x :: insertBefore xs id n

/-- `List<T>::insert(pos, value)` (List.cpp:273-294): when `pos.current` is
null the call degenerates to `push_back` and returns `Iterator(tail)`;
otherwise a fresh node is linked immediately before `pos.current` and an
iterator to it is returned.  `count++` happens unconditionally.  Iterators
are node references: `none` is `end()`, `some id` refers to the node with
identity `id`. -/
def insertNode (s : ListState α) (pos : Option Nat) (v : α) :
    ListState α × Option Nat :=
  match pos with
  | none => (pushBack s v, some s.freshId)
  | some id =>
      ({ s with nodes := insertBefore s.nodes id (s.freshId, v),
                count := incCount s.count,
                freshId := s.freshId + 1 }, some s.freshId)

/-- The loop body of `List<T>::insert(pos, count, value)` (List.cpp:319-327):
`result = pos; for i in [0, n): result = insert(pos, value); return result`. -/
def insertLoop (s : ListState α) (pos : Option Nat) (v : α) (res : Option Nat) :
    Nat → ListState α × Option Nat
  | 0 => (s, res)
  | Nat.succ k =>
      let sr := insertNode s pos v
      insertLoop sr.1 pos v sr.2 k

/-- `List<T>::insert(pos, count, value)` (List.cpp:319-327). -/
def insertMulti (s : ListState α) (pos : Option Nat) (n : Nat) (v : α) :
    ListState α × Option Nat :=
  insertLoop s pos v pos n

/-- Chain effect of `List<T>::erase(pos)` for a non-null `pos`: remove the
first chain node with identity `id` and return an iterator to the node that
followed it (`pos.current->next`). -/
def eraseChain : List (Nat × α) → Nat → List (Nat × α) × Option Nat
  | [], _ => ([], none)
  | x :: xs, id =>
      if x.1 = id then (xs, xs.head?.map Prod.fst)
      else
        let lr := eraseChain xs id
        (x :: lr.1, lr.2)

/-- `List<T>::erase(pos)` (List.cpp:330-341): erasing at `end()` is a no-op
returning `end()`; otherwise the node is unlinked and `count` is decremented
unconditionally. -/
def eraseOp (s : ListState α) (pos : Option Nat) : ListState α × Option Nat :=
  match pos with
  | none => (s, none)
  | some id =>
      let lr := eraseChain s.nodes id
      ({ s with nodes := lr.1, count := decCount s.count }, lr.2)

/-- `List<T>::clear` (List.cpp:353-363): unlinks every node and zeroes
`count`.  The nodes are released, not handed to the allocator pool. -/
def clearOp (s : ListState α) : ListState α :=
  { s with nodes := [], count := 0 }

/-- Splice an entire chain `c` immediately before the first node with
identity `id` (the non-null-`pos` branch of `List<T>::splice`,
List.cpp:455-464). -/
def insertChainBefore : List (Nat × α) → Nat → List (Nat × α) → List (Nat × α)
  | [], _, _ => []
  | x :: xs, id, c => if x.1 = id then c ++ x :: xs else x :: insertChainBefore xs id c

/-- `List<T>::splice(pos, other)` (List.cpp:431-467).  Returns the new states
of `this` and `other`.  The source clears `other.head/tail/count` *before*
executing `count += other.count` (line 444 precedes line 466), so the final
addition adds the already-zeroed value: `this->count` is left unchanged even
though the whole chain of `other` is linked in.  The early return tests
`other.empty()`, i.e. `other.count == 0`. -/
def spliceOp (s : ListState α) (pos : Option Nat) (t : ListState α) :
    ListState α × ListState α :=
  if t.count = 0 then (s, t)
  else
    let first := t.nodes
    let t' : ListState α := { t with nodes := [], count := 0 }
    let newNodes :=
      match pos with
      | none => s.nodes ++ first
      | some id => insertChainBefore s.nodes id first
    ({ s with nodes := newNodes, count := (s.count + t'.count) % U64 }, t')

/-- The scan of `List<T>::unique` (List.cpp:394-409): `x` is the node
`current`; while a successor exists, a successor with payload equal to
`current->data` is unlinked (and `count` decremented), otherwise `current`
advances. -/
def uniqueLoop [DecidableEq α] (x : Nat × α) :
    List (Nat × α) → Nat → List (Nat × α) × Nat
  | [], c => ([x], c)
  | y :: rest, c =>
      if x.2 = y.2 then uniqueLoop x rest (decCount c)
      else
        let lc := uniqueLoop y rest c
        (x :: lc.1, lc.2)

/-- `List<T>::unique` (List.cpp:394-409): returns immediately when
`head == nullptr`. -/
def uniqueOp [DecidableEq α] (s : ListState α) : ListState α :=
  match s.nodes with
  | [] => s
  | x :: rest =>
      let lc := uniqueLoop x rest s.count
      { s with nodes := lc.1, count := lc.2 }

/-- `List<T>::sort` (List.cpp:379-392): copy all payloads into a
`std::vector`, `std::sort` it ascending, `clear()` the list, and `push_back`
every sorted value.  `std::sort` with `operator<` produces the unique
ascending arrangement of the multiset of values, here given by
`List.insertionSort (· ≤ ·)`.  Every node of the result is freshly created
by `push_back`. -/
def sortOp [LinearOrder α] (s : ListState α) : ListState α :=
  pushBackAll (clearOp s) (List.insertionSort (· ≤ ·) (values s))

/-- The loop of `List<T>::merge(other)` (List.cpp:411-429) at the level of
payload sequences: `xs` is the part of `this` from `thisIt` on, `ys` the
unconsumed part of `other`.  When `thisIt == end()` or
`*otherIt < *thisIt`, the value of `other`'s element is inserted before
`thisIt` (a copy into a fresh node); otherwise `thisIt` advances. -/
def mergeVals [LinearOrder α] : List α → List α → List α
  | xs, [] => xs
  | [], y :: ys2 => y :: mergeVals [] ys2
  | x :: xs2, y :: ys2 =>
      if y < x then y :: mergeVals (x :: xs2) ys2
      else x :: mergeVals xs2 (y :: ys2)
termination_by xs ys => (ys.length, xs.length)

/-- The loop of `List<T>::merge(other)` at the node level: `acc` is the part
of `this`'s chain already behind `thisIt`, `xs` the part from `thisIt` on,
`ys` the payloads still to be consumed from `other`.  Each `insert` creates
a fresh node and increments `count`. -/
def mergeLoop [LinearOrder α] (acc xs : List (Nat × α)) (ys : List α)
    (c fid : Nat) : List (Nat × α) × Nat × Nat :=
  match xs, ys with
  | xs, [] => (acc ++ xs, c, fid)
  | [], y :: ys2 => mergeLoop (acc ++ [(fid, y)]) [] ys2 (incCount c) (fid + 1)
  | x :: xs2, y :: ys2 =>
      if y < x.2 then mergeLoop (acc ++ [(fid, y)]) (x :: xs2) ys2 (incCount c) (fid + 1)
      else mergeLoop (acc ++ [x]) xs2 (y :: ys2) c fid
termination_by (ys.length, xs.length)

/-- `List<T>::merge(other)` (List.cpp:411-429): run the merge loop, then
`other.clear()`. -/
def mergeOp [LinearOrder α] (s t : ListState α) : ListState α × ListState α :=
  let r := mergeLoop ([] : List (Nat × α)) s.nodes (values t) s.count s.freshId
  ({ s with nodes := r.1, count := r.2.1, freshId := r.2.2 },
   { t with nodes := [], count := 0 })

/-- `List<T>::try_push_front` (List.cpp:532-539): `acquired` is the outcome
of `std::try_to_lock`; on failure return `false` with no mutation, on
success perform `push_front` and return `true`. -/
def tryPushFront (acquired : Bool) (s : ListState α) (v : α) :
    Bool × ListState α :=
  if !acquired then (false, s) else (true, pushFront s v)

/-- `List<T>::try_push_back` (List.cpp:541-548). -/
def tryPushBack (acquired : Bool) (s : ListState α) (v : α) :
    Bool × ListState α :=
  if !acquired then (false, s) else (true, pushBack s v)

/-- `List<T>::try_pop_front` (List.cpp:550-558): fails (returning `false`,
touching nothing) when the lock is contended *or* `head == nullptr`;
otherwise copies `head->data` into the output argument, calls `pop_front`,
and returns `true`.  The third component models the output reference
argument (`none`: not written). -/
def tryPopFront (acquired : Bool) (s : ListState α) :
    Bool × ListState α × Option α :=
  if !acquired then (false, s, none)
  else
    match s.nodes with
    | [] => (false, s, none)
    | x :: _ =>
        match popFront s with
        | .ok s' => (true, s', some x.2)
        | .error _ => (false, s, none)

/-- `List<T>::try_pop_back` (List.cpp:560-568): as `try_pop_front`, guarded
by `tail == nullptr`, copying `tail->data`. -/
def tryPopBack (acquired : Bool) (s : ListState α) :
    Bool × ListState α × Option α :=
  if !acquired then (false, s, none)
  else
    match s.nodes.getLast? with
    | none => (false, s, none)
    | some x =>
        match popBack s with
        | .ok s' => (true, s', some x.2)
        | .error _ => (false, s, none)

/-- `List<T>::try_insert` (List.cpp:570-577): on acquisition perform the
blocking `insert` (discarding its iterator) and return `true`. -/
def tryInsert (acquired : Bool) (s : ListState α) (pos : Option Nat) (v : α) :
    Bool × ListState α :=
  if !acquired then (false, s) else (true, (insertNode s pos v).1)

/-- `List<T>::try_erase` (List.cpp:579-586): fails on contention or when
`pos.current == nullptr`; otherwise performs the blocking `erase` and
returns `true`. -/
def tryErase (acquired : Bool) (s : ListState α) (pos : Option Nat) :
    Bool × ListState α :=
  if !acquired then (false, s)
  else
    match pos with
    | none => (false, s)
    | some _ => (true, (eraseOp s pos).1)

/-- Modelled from the claim's words, for comparison with `uniqueOp`:
the helper that drops every element equal to its immediate predecessor
(`p` is the most recent retained element). -/
def adjGo [DecidableEq α] (p : α) : List α → List α
  | [] => []
  | y :: ys => if y = p then adjGo p ys else y :: adjGo y ys

/-- Modelled from the claim's words, for comparison with `uniqueOp`:
remove exactly the elements equal to their immediate predecessor, keeping
non-adjacent duplicates. -/
def removeAdjDup [DecidableEq α] : List α → List α
  | [] => []
  | x :: xs => x :: adjGo x xs

/-- Iterator `pos` of list `s` sits exactly between the chain prefix `A` and
suffix `B`: `end()` when `B = []`, otherwise a reference to the first node
of `B`.  Also requires every chain identity to be below `freshId` (true of
every reachable state) and, for a node iterator, that the target identity
does not occur in `A` (node identities are unique in reachable states). -/
def PosAt (s : ListState α) (pos : Option Nat) (A B : List (Nat × α)) : Prop :=
  s.nodes = A ++ B ∧ (∀ p ∈ s.nodes, p.1 < s.freshId) ∧
    match pos with
    | none => B = []
    | some id => (∀ p ∈ A, p.1 ≠ id) ∧ ∃ q B2, B = q :: B2 ∧ q.1 = id

/- Concrete states used by the claim-level theorems. -/

/-- `A = [1, 2]` built by two `push_back` calls. -/
def exA : ListState Int := pushBackAll emptyList [1, 2]

/-- `B = [3, 4]` built by two `push_back` calls. -/
def exB : ListState Int := pushBackAll emptyList [3, 4]

/-- The one-element list `[7]`. -/
def exPool : ListState Int := pushBackAll emptyList [7]

/-- The state reached by splicing `[1]` into a default-constructed empty
list: its chain holds one node while its stored `count` is `0`. -/
def exZero : ListState Int :=
  (spliceOp emptyList none (pushBackAll emptyList [1])).1

/-- The list `[2, 1]` (node identities 0 and 1). -/
def exSort : ListState Int := pushBackAll emptyList [2, 1]

/-- The list `[1, 1, 2, 1]` from the `unique()` example. -/
def exUniq : ListState Int := pushBackAll emptyList [1, 1, 2, 1]

/-- The sorted list `[1, 3, 5]` from the `merge` example. -/
def exM1 : ListState Int := pushBackAll emptyList [1, 3, 5]

/-- The sorted list `[2, 4]` from the `merge` example. -/
def exM2 : ListState Int := pushBackAll emptyList [2, 4]

/-- The list `[8, 9]` used to exercise the `try_*` operations. -/
def exTry : ListState Int := pushBackAll emptyList [8, 9]

/-- The list `[10, 20]` used to exercise the multi-insert. -/
def exIns : ListState Int := pushBackAll emptyList [10, 20]

end Kuserspace

namespace Kuserspace

variable {α : Type}

theorem U64_pos : 0 < U64 := by
  simp [U64]

theorem decCount_eq_sub_one {c : Nat} (h0 : 0 < c) (h1 : c < U64) :
    decCount c = c - 1 := by
  unfold decCount
  have h2 : c + (U64 - 1) = (c - 1) + U64 := by
    have := U64_pos
    omega
  rw [h2, Nat.add_mod_right, Nat.mod_eq_of_lt]
  omega

theorem pushBackAll_cons (s : ListState α) (a : α) (l : List α) :
    pushBackAll s (a :: l) = pushBackAll (pushBack s a) l := rfl

theorem values_pushBack (s : ListState α) (v : α) :
    values (pushBack s v) = values s ++ [v] := by
  simp [values, pushBack]

theorem values_pushBackAll (s : ListState α) (l : List α) :
    values (pushBackAll s l) = values s ++ l := by
  induction l generalizing s with
  | nil => simp [pushBackAll]
  | cons a l ih =>
      rw [pushBackAll_cons, ih, values_pushBack]
      simp

theorem pushBackAll_mem_ids (s : ListState α) (l : List α) :
    ∀ p ∈ (pushBackAll s l).nodes, p ∈ s.nodes ∨ s.freshId ≤ p.1 := by
  induction l generalizing s with
  | nil => intro p hp; exact Or.inl hp
  | cons a l ih =>
      intro p hp
      rcases ih (pushBack s a) p hp with h | h
      · simp only [pushBack, List.mem_append, List.mem_singleton] at h
        rcases h with h | h
        · exact Or.inl h
        · right
          simp [h]
      · right
        simp only [pushBack] at h
        omega

/-- C1: `splice(pos, other)` does move the entire chain of `other` before
`pos` and does empty `other`, but `this.count` is NOT incremented by
`other`'s former count: the source zeroes `other.count` (List.cpp:444)
before executing `count += other.count` (List.cpp:466), so for
`A = [1, 2]`, `B = [3, 4]`, `A.splice(A.end(), B)` leaves `A.count == 2`
while `A`'s chain holds the four nodes `[1, 2, 3, 4]`; `size()` of `A`
is 2, not the claimed sum 4. -/
theorem splice_loses_count :
    values (spliceOp exA none exB).1 = [1, 2, 3, 4] ∧
    (spliceOp exA none exB).2.nodes = [] ∧
    (spliceOp exA none exB).2.count = 0 ∧
    exA.count = 2 ∧ exB.count = 2 ∧
    (spliceOp exA none exB).1.count = 2 ∧
    (spliceOp exA none exB).1.count ≠ exA.count + exB.count := by
  refine ⟨rfl, rfl, rfl, rfl, rfl, rfl, ?_⟩
  decide

/-- C2: the invariant "`count` equals the length of the forward chain" is
violated by `splice`: after `A.splice(A.end(), B)` with `A = [1, 2]`,
`B = [3, 4]`, the chain of `A` has length 4 while `A.count` is still 2
(consequence of zeroing `other.count` before `count += other.count`,
List.cpp:444/466). -/
theorem splice_breaks_count_invariant :
    (spliceOp exA none exB).1.nodes.length = 4 ∧
    (spliceOp exA none exB).1.count = 2 ∧
    (spliceOp exA none exB).1.count ≠ (spliceOp exA none exB).1.nodes.length := by
  refine ⟨rfl, rfl, ?_⟩
  decide

/-- C5 counterexample: popping the single element of `[7]` leaves the
allocator free list untouched (`pool` stays 0), whereas returning the node
to the pool (`NodeAllocator::deallocate`) would grow it to
`poolDealloc 0 = 1`; no list operation ever calls the allocator. -/
theorem pop_front_pool_counterexample :
    popFront exPool = Except.ok (⟨[], 0, 1, 0⟩ : ListState Int) ∧
    poolDealloc exPool.pool = 1 ∧
    ¬ ∃ s', popFront exPool = Except.ok s' ∧ s'.pool = poolDealloc exPool.pool := by
  refine ⟨rfl, rfl, ?_⟩
  rintro ⟨s', h1, h2⟩
  rw [show popFront exPool = Except.ok (⟨[], 0, 1, 0⟩ : ListState Int) from rfl] at h1
  injection h1 with h
  subst h
  exact absurd h2 (by decide)

/-- C5 (amended): on a non-empty list, `pop_front()` (resp. `pop_back()`)
unlinks the node at the front (resp. back) and decrements `count` by one;
the node is simply released — it is never returned to the allocator pool,
whose free list is untouched by every list operation. -/
theorem pop_spec (s : ListState α) (h : s.nodes ≠ []) (h0 : 0 < s.count)
    (h1 : s.count < U64) :
    (∃ s', popFront s = Except.ok s' ∧ s'.nodes = s.nodes.tail ∧
       s'.count = s.count - 1 ∧ s'.pool = s.pool) ∧
    (∃ s', popBack s = Except.ok s' ∧ s'.nodes = s.nodes.dropLast ∧
       s'.count = s.count - 1 ∧ s'.pool = s.pool) := by
  constructor
  · obtain ⟨x, rest, hs⟩ : ∃ x rest, s.nodes = x :: rest := by
      cases hn : s.nodes with
      | nil => exact absurd hn h
      | cons a l => exact ⟨a, l, rfl⟩
    refine ⟨{ s with nodes := rest, count := decCount s.count }, ?_, ?_, ?_, rfl⟩
    · simp [popFront, hs]
    · simp [hs]
    · exact decCount_eq_sub_one h0 h1
  · cases hg : s.nodes.getLast? with
    | none =>
        rw [List.getLast?_eq_none_iff] at hg
        exact absurd hg h
    | some q =>
        refine ⟨{ s with nodes := s.nodes.dropLast, count := decCount s.count },
          ?_, rfl, ?_, rfl⟩
        · simp [popBack, hg]
        · exact decCount_eq_sub_one h0 h1

/-- Witness for the amended C5 at the list `[8, 9]`. -/
theorem pop_spec_witness :
    (∃ s', popFront exTry = Except.ok s' ∧ s'.nodes = exTry.nodes.tail ∧
       s'.count = exTry.count - 1 ∧ s'.pool = exTry.pool) ∧
    (∃ s', popBack exTry = Except.ok s' ∧ s'.nodes = exTry.nodes.dropLast ∧
       s'.count = exTry.count - 1 ∧ s'.pool = exTry.pool) :=
  pop_spec exTry (by decide) (by decide) (by decide)

/-- C6 counterexample: splicing `[1]` into a default-constructed empty list
produces a reachable state whose stored `count` is 0 yet whose chain is
non-empty (the `splice` count slip); on it, `front()` returns the element 1
instead of raising `EmptyContainerAccess`, because the source guards on
`head == nullptr`, not on `count == 0`. -/
theorem front_zero_count_counterexample :
    exZero.count = 0 ∧ front exZero = Except.ok 1 ∧
    front exZero ≠ Except.error ListError.emptyContainerAccess :=
  ⟨rfl, rfl, fun h => Except.noConfusion h⟩

/-- C6 (amended): for every list whose node chain is empty
(`head == nullptr`, which coincides with `count == 0` in every state
satisfying the count invariant), `front()`, `back()`, `pop_front()` and
`pop_back()` raise `EmptyContainerAccess` and leave the container unchanged
— each throws before performing any mutation. -/
theorem empty_chain_raises (s : ListState α) (h : s.nodes = []) :
    front s = Except.error ListError.emptyContainerAccess ∧
    back s = Except.error ListError.emptyContainerAccess ∧
    popFront s = Except.error ListError.emptyContainerAccess ∧
    popBack s = Except.error ListError.emptyContainerAccess := by
  refine ⟨?_, ?_, ?_, ?_⟩ <;> simp [front, back, popFront, popBack, h]

/-- Witness for the amended C6 at the default-constructed empty list. -/
theorem empty_chain_raises_witness :
    front (emptyList : ListState Int) = Except.error ListError.emptyContainerAccess ∧
    back (emptyList : ListState Int) = Except.error ListError.emptyContainerAccess ∧
    popFront (emptyList : ListState Int) = Except.error ListError.emptyContainerAccess ∧
    popBack (emptyList : ListState Int) = Except.error ListError.emptyContainerAccess :=
  empty_chain_raises emptyList rfl

end Kuserspace

namespace Kuserspace

variable {α : Type}

theorem uniqueLoop_values [DecidableEq α] (l : List (Nat × α)) :
    ∀ (x : Nat × α) (c : Nat),
      ((uniqueLoop x l c).1).map Prod.snd = x.2 :: adjGo x.2 (l.map Prod.snd) := by
  induction l with
  | nil => intro x c; simp [uniqueLoop, adjGo]
  | cons y rest ih =>
      intro x c
      by_cases hxy : x.2 = y.2
      · simp only [uniqueLoop, if_pos hxy]
        rw [ih x (decCount c)]
        simp [adjGo, hxy]
      · simp only [uniqueLoop, if_neg hxy, List.map_cons]
        rw [ih y c]
        simp only [List.map_cons, adjGo]
        rw [if_neg (Ne.symm hxy)]

theorem uniqueOp_values [DecidableEq α] (s : ListState α) :
    values (uniqueOp s) = removeAdjDup (values s) := by
  cases hs : s.nodes with
  | nil => simp [uniqueOp, values, removeAdjDup, hs]
  | cons x rest =>
      simp only [uniqueOp, hs, values]
      rw [uniqueLoop_values rest x s.count]
      simp [removeAdjDup]

/-- C8: `unique()` removes exactly the elements equal to their immediate
predecessor in a single forward pass; non-adjacent duplicates are retained.
In particular `[1, 1, 2, 1]` becomes `[1, 2, 1]`. -/
theorem unique_adjacent_spec :
    (∀ {β : Type} [DecidableEq β] (s : ListState β),
        values (uniqueOp s) = removeAdjDup (values s)) ∧
    values (uniqueOp exUniq) = [1, 2, 1] := by
  constructor
  · intro β _ s
    exact uniqueOp_values s
  · decide

/-- C3 counterexample: after `sort()` on the list `[2, 1]` (whose two nodes
have identities 0 and 1), the payload sequence is the ascending `[1, 2]`,
but the nodes are the freshly created 2 and 3: identity 0 is no longer
present, refuting "every node identity present before is preserved". -/
theorem sort_discards_node_ids :
    values (sortOp exSort) = [1, 2] ∧
    exSort.nodes.map Prod.fst = [0, 1] ∧
    (sortOp exSort).nodes.map Prod.fst = [2, 3] ∧
    ¬ ∀ p ∈ exSort.nodes, p.1 ∈ (sortOp exSort).nodes.map Prod.fst := by
  refine ⟨rfl, rfl, rfl, ?_⟩
  decide

/-- C3 (amended): `sort()` leaves the list holding the ascending permutation
of its previous elements, but it does so by copying the elements out,
clearing the list, and pushing the sorted values back: every node of the
result is freshly created (its identity is at least the previous fresh-id
bound), so node identities are NOT preserved and the nodes are relinked. -/
theorem sort_spec [LinearOrder α] (s : ListState α) :
    values (sortOp s) = List.insertionSort (· ≤ ·) (values s) ∧
    List.Sorted (· ≤ ·) (values (sortOp s)) ∧
    List.Perm (values (sortOp s)) (values s) ∧
    ∀ p ∈ (sortOp s).nodes, s.freshId ≤ p.1 := by
  have hv : values (sortOp s) = List.insertionSort (· ≤ ·) (values s) := by
    unfold sortOp
    rw [values_pushBackAll]
    simp [values, clearOp]
  refine ⟨hv, ?_, ?_, ?_⟩
  · rw [hv]
    exact List.sorted_insertionSort _ _
  · rw [hv]
    exact List.perm_insertionSort _ _
  · intro p hp
    have h := pushBackAll_mem_ids (clearOp s) _ p hp
    simpa [clearOp] using h

/-- Witness for the amended C3 at the list `[2, 1]`. -/
theorem sort_spec_witness :
    values (sortOp exSort) = List.insertionSort (· ≤ ·) (values exSort) ∧
    List.Sorted (· ≤ ·) (values (sortOp exSort)) ∧
    List.Perm (values (sortOp exSort)) (values exSort) ∧
    ∀ p ∈ (sortOp exSort).nodes, exSort.freshId ≤ p.1 :=
  sort_spec exSort

end Kuserspace

namespace Kuserspace

variable {α : Type}

/-- C4: each `try_*` operation, given the outcome of its non-blocking lock
attempt, either returns `true` having performed exactly the effect of the
corresponding blocking operation with the same arguments, or returns
`false` leaving the list unchanged. -/
theorem try_ops_match_blocking (b : Bool) (s : ListState α) (v : α)
    (pos : Option Nat) :
    ((tryPushFront b s v).1 = true → (tryPushFront b s v).2 = pushFront s v) ∧
    ((tryPushFront b s v).1 = false → (tryPushFront b s v).2 = s) ∧
    ((tryPushBack b s v).1 = true → (tryPushBack b s v).2 = pushBack s v) ∧
    ((tryPushBack b s v).1 = false → (tryPushBack b s v).2 = s) ∧
    ((tryPopFront b s).1 = true → popFront s = Except.ok (tryPopFront b s).2.1) ∧
    ((tryPopFront b s).1 = false → (tryPopFront b s).2.1 = s) ∧
    ((tryPopBack b s).1 = true → popBack s = Except.ok (tryPopBack b s).2.1) ∧
    ((tryPopBack b s).1 = false → (tryPopBack b s).2.1 = s) ∧
    ((tryInsert b s pos v).1 = true → (tryInsert b s pos v).2 = (insertNode s pos v).1) ∧
    ((tryInsert b s pos v).1 = false → (tryInsert b s pos v).2 = s) ∧
    ((tryErase b s pos).1 = true → (tryErase b s pos).2 = (eraseOp s pos).1) ∧
    ((tryErase b s pos).1 = false → (tryErase b s pos).2 = s) := by
  refine ⟨?_, ?_, ?_, ?_, ?_, ?_, ?_, ?_, ?_, ?_, ?_, ?_⟩
  · cases b <;> simp [tryPushFront]
  · cases b <;> simp [tryPushFront]
  · cases b <;> simp [tryPushBack]
  · cases b <;> simp [tryPushBack]
  · cases b <;> cases hn : s.nodes <;> simp [tryPopFront, popFront, hn]
  · cases b <;> cases hn : s.nodes <;> simp [tryPopFront, popFront, hn]
  · cases b <;> cases hg : s.nodes.getLast? <;> simp [tryPopBack, popBack, hg]
  · cases b <;> cases hg : s.nodes.getLast? <;> simp [tryPopBack, popBack, hg]
  · cases b <;> simp [tryInsert]
  · cases b <;> simp [tryInsert]
  · cases b <;> cases pos <;> simp [tryErase]
  · cases b <;> cases pos <;> simp [tryErase]

/-- Witness for C4 at the list `[8, 9]`, exercising both lock outcomes. -/
theorem try_ops_match_blocking_witness :
    (tryPushFront true exTry (5 : Int)).2 = pushFront exTry 5 ∧
    (tryPushBack false exTry (5 : Int)).2 = exTry ∧
    popFront exTry = Except.ok (tryPopFront true exTry).2.1 ∧
    popBack exTry = Except.ok (tryPopBack true exTry).2.1 ∧
    (tryInsert true exTry (some 0) (5 : Int)).2 = (insertNode exTry (some 0) 5).1 ∧
    (tryErase false exTry (some 0)).2 = exTry := by
  have ht := try_ops_match_blocking true exTry (5 : Int) (some 0)
  have hf := try_ops_match_blocking false exTry (5 : Int) (some 0)
  exact ⟨ht.1 rfl, hf.2.2.2.1 rfl, ht.2.2.2.2.1 rfl, ht.2.2.2.2.2.2.1 rfl,
         ht.2.2.2.2.2.2.2.2.1 rfl, hf.2.2.2.2.2.2.2.2.2.2.2 rfl⟩

/-- C9: on a list with an empty chain, `try_pop_front`/`try_pop_back` return
`false` without raising `EmptyContainerAccess` (they never throw; the
blocking `pop_front`/`pop_back` raise on the same state) and leave the list
and the output argument untouched; on a non-empty list with the lock
available they copy the front/back element into the output argument, perform
the blocking pop, and return `true`. -/
theorem try_pop_empty_spec (b : Bool) (s : ListState α) :
    (s.nodes = [] →
      tryPopFront b s = (false, s, none) ∧
      tryPopBack b s = (false, s, none) ∧
      popFront s = Except.error ListError.emptyContainerAccess ∧
      popBack s = Except.error ListError.emptyContainerAccess) ∧
    (s.nodes ≠ [] →
      ∃ v s', front s = Except.ok v ∧ popFront s = Except.ok s' ∧
        tryPopFront true s = (true, s', some v)) ∧
    (s.nodes ≠ [] →
      ∃ v s', back s = Except.ok v ∧ popBack s = Except.ok s' ∧
        tryPopBack true s = (true, s', some v)) := by
  refine ⟨?_, ?_, ?_⟩
  · intro h
    cases b <;> simp [tryPopFront, tryPopBack, popFront, popBack, h]
  · intro h
    cases hn : s.nodes with
    | nil => exact absurd hn h
    | cons x rest =>
        exact ⟨x.2, { s with nodes := rest, count := decCount s.count },
          by simp [front, hn], by simp [popFront, hn],
          by simp [tryPopFront, popFront, hn]⟩
  · intro h
    cases hg : s.nodes.getLast? with
    | none =>
        rw [List.getLast?_eq_none_iff] at hg
        exact absurd hg h
    | some q =>
        exact ⟨q.2, { s with nodes := s.nodes.dropLast, count := decCount s.count },
          by simp [back, hg], by simp [popBack, hg],
          by simp [tryPopBack, popBack, hg]⟩

/-- Witness for C9: the empty part at a default-constructed list, the
non-empty part at `[8, 9]`. -/
theorem try_pop_empty_spec_witness :
    (tryPopFront true (emptyList : ListState Int) = (false, emptyList, none) ∧
     tryPopBack true (emptyList : ListState Int) = (false, emptyList, none) ∧
     popFront (emptyList : ListState Int) = Except.error ListError.emptyContainerAccess ∧
     popBack (emptyList : ListState Int) = Except.error ListError.emptyContainerAccess) ∧
    (∃ v s', front exTry = Except.ok v ∧ popFront exTry = Except.ok s' ∧
       tryPopFront true exTry = (true, s', some v)) ∧
    (∃ v s', back exTry = Except.ok v ∧ popBack exTry = Except.ok s' ∧
       tryPopBack true exTry = (true, s', some v)) :=
  ⟨(try_pop_empty_spec true (emptyList : ListState Int)).1 rfl,
   (try_pop_empty_spec true exTry).2.1 (by decide),
   (try_pop_empty_spec true exTry).2.2 (by decide)⟩

end Kuserspace

namespace Kuserspace

variable {α : Type}

theorem mergeVals_nil_right [LinearOrder α] (xs : List α) :
    mergeVals xs [] = xs := by
  cases xs <;> simp [mergeVals]

theorem mergeVals_perm [LinearOrder α] (ys : List α) :
    ∀ xs : List α, List.Perm (mergeVals xs ys) (xs ++ ys) := by
  induction ys with
  | nil =>
      intro xs
      rw [mergeVals_nil_right]
      simp
  | cons y ys2 ihy =>
      intro xs
      induction xs with
      | nil =>
          simp only [mergeVals]
          exact (List.Perm.cons y (ihy [])).trans (by simp)
      | cons x xs2 ihx =>
          by_cases h : y < x
          · simp only [mergeVals, if_pos h]
            exact (List.Perm.cons y (ihy (x :: xs2))).trans List.perm_middle.symm
          · simp only [mergeVals, if_neg h]
            exact List.Perm.cons x ihx

theorem mergeVals_mem [LinearOrder α] {a : α} {xs ys : List α} :
    a ∈ mergeVals xs ys ↔ a ∈ xs ∨ a ∈ ys := by
  rw [(mergeVals_perm ys xs).mem_iff]
  simp

theorem mergeVals_sorted [LinearOrder α] (ys : List α) :
    ∀ xs : List α, List.Sorted (· ≤ ·) xs → List.Sorted (· ≤ ·) ys →
      List.Sorted (· ≤ ·) (mergeVals xs ys) := by
  induction ys with
  | nil =>
      intro xs hx _
      rw [mergeVals_nil_right]
      exact hx
  | cons y ys2 ihy =>
      intro xs
      induction xs with
      | nil =>
          intro _ hy
          simp only [mergeVals]
          rw [List.sorted_cons] at hy ⊢
          refine ⟨?_, ihy [] (by simp) hy.2⟩
          intro b hb
          rcases mergeVals_mem.1 hb with hb | hb
          · simp at hb
          · exact hy.1 b hb
      | cons x xs2 ihx =>
          intro hx hy
          by_cases h : y < x
          · simp only [mergeVals, if_pos h]
            rw [List.sorted_cons]
            refine ⟨?_, ihy (x :: xs2) hx (List.sorted_cons.1 hy).2⟩
            intro b hb
            rcases mergeVals_mem.1 hb with hb | hb
            · rcases List.mem_cons.1 hb with hb | hb
              · exact le_of_lt (hb ▸ h)
              · exact le_of_lt (lt_of_lt_of_le h ((List.sorted_cons.1 hx).1 b hb))
            · exact (List.sorted_cons.1 hy).1 b hb
          · simp only [mergeVals, if_neg h]
            rw [List.sorted_cons]
            refine ⟨?_, ihx (List.sorted_cons.1 hx).2 hy⟩
            intro b hb
            rcases mergeVals_mem.1 hb with hb | hb
            · exact (List.sorted_cons.1 hx).1 b hb
            · rcases List.mem_cons.1 hb with hb | hb
              · exact hb ▸ le_of_not_lt h
              · exact le_trans (le_of_not_lt h) ((List.sorted_cons.1 hy).1 b hb)

theorem mergeLoop_values [LinearOrder α] (ys : List α) :
    ∀ (acc xs : List (Nat × α)) (c fid : Nat),
      ((mergeLoop acc xs ys c fid).1).map Prod.snd =
        acc.map Prod.snd ++ mergeVals (xs.map Prod.snd) ys := by
  induction ys with
  | nil =>
      intro acc xs c fid
      simp only [mergeLoop]
      rw [mergeVals_nil_right]
      simp
  | cons y ys2 ihy =>
      intro acc xs
      induction xs generalizing acc with
      | nil =>
          intro c fid
          simp only [mergeLoop]
          rw [ihy]
          simp [mergeVals]
      | cons x xs2 ihx =>
          intro c fid
          by_cases h : y < x.2
          · simp only [mergeLoop, if_pos h]
            rw [ihy]
            simp only [List.map_cons, mergeVals, if_pos h]
            simp
          · simp only [mergeLoop, if_neg h]
            rw [ihx (acc ++ [x]) c fid]
            simp only [List.map_cons, mergeVals, if_neg h]
            simp

end Kuserspace

namespace Kuserspace

variable {α : Type}

/-- C7: for two lists that are each already sorted ascending, `merge(other)`
leaves `this` as a single ascending-sorted sequence containing all elements
of both lists (a permutation of their concatenation) and leaves `other`
empty. -/
theorem merge_sorted_spec [LinearOrder α] (s t : ListState α)
    (hs : List.Sorted (· ≤ ·) (values s)) (ht : List.Sorted (· ≤ ·) (values t)) :
    List.Sorted (· ≤ ·) (values (mergeOp s t).1) ∧
    List.Perm (values (mergeOp s t).1) (values s ++ values t) ∧
    (mergeOp s t).2.nodes = [] ∧ (mergeOp s t).2.count = 0 := by
  have hv : values (mergeOp s t).1 = mergeVals (values s) (values t) := by
    show ((mergeLoop [] s.nodes (values t) s.count s.freshId).1).map Prod.snd = _
    rw [mergeLoop_values]
    simp [values]
  refine ⟨?_, ?_, rfl, rfl⟩
  · rw [hv]
    exact mergeVals_sorted (values t) (values s) hs ht
  · rw [hv]
    exact mergeVals_perm (values t) (values s)

/-- Witness for C7 at `A = [1, 3, 5]`, `B = [2, 4]`. -/
theorem merge_sorted_spec_witness :
    List.Sorted (· ≤ ·) (values (mergeOp exM1 exM2).1) ∧
    List.Perm (values (mergeOp exM1 exM2).1) (values exM1 ++ values exM2) ∧
    (mergeOp exM1 exM2).2.nodes = [] ∧ (mergeOp exM1 exM2).2.count = 0 :=
  merge_sorted_spec exM1 exM2 (by decide) (by decide)

end Kuserspace

namespace Kuserspace

variable {α : Type}

theorem insertBefore_append (A : List (Nat × α)) (q : Nat × α)
    (B2 : List (Nat × α)) (id : Nat) (n : Nat × α)
    (hA : ∀ p ∈ A, p.1 ≠ id) (hq : q.1 = id) :
    insertBefore (A ++ q :: B2) id n = A ++ n :: q :: B2 := by
  induction A with
  | nil => simp [insertBefore, hq]
  | cons a A ih =>
      have ha : a.1 ≠ id := hA a (by simp)
      simp only [List.cons_append, insertBefore, if_neg ha, List.append_eq]
      rw [ih (fun p hp => hA p (by simp [hp]))]

theorem insertNode_posAt (s : ListState α) (pos : Option Nat)
    (A B : List (Nat × α)) (v : α) (h : PosAt s pos A B) :
    insertNode s pos v =
      ({ s with nodes := (A ++ (s.freshId, v) :: B),
                count := incCount s.count,
                freshId := s.freshId + 1 }, some s.freshId) := by
  obtain ⟨hnodes, hb, hpos⟩ := h
  cases pos with
  | none =>
      have hB : B = [] := hpos
      subst hB
      simp [insertNode, pushBack, hnodes]
  | some id =>
      obtain ⟨hA, q, B2, hBq, hq⟩ := hpos
      subst hBq
      simp only [insertNode, Prod.mk.injEq, and_true]
      rw [hnodes, insertBefore_append A q B2 id (s.freshId, v) hA hq]

theorem posAt_next (s : ListState α) (pos : Option Nat) (A B : List (Nat × α))
    (v : α) (h : PosAt s pos A B) :
    PosAt { s with nodes := (A ++ (s.freshId, v) :: B),
                   count := incCount s.count,
                   freshId := s.freshId + 1 }
      pos (A ++ [(s.freshId, v)]) B := by
  obtain ⟨hnodes, hb, hpos⟩ := h
  refine ⟨by simp, ?_, ?_⟩
  · intro p hp
    show p.1 < s.freshId + 1
    simp only [List.mem_append, List.mem_cons] at hp
    rcases hp with hp | hp | hp
    · have := hb p (by rw [hnodes]; exact List.mem_append_left B hp)
      omega
    · simp [hp]
    · have := hb p (by rw [hnodes]; exact List.mem_append_right A hp)
      omega
  · cases pos with
    | none => exact hpos
    | some id =>
        obtain ⟨hA, q, B2, hBq, hq⟩ := hpos
        refine ⟨?_, q, B2, hBq, hq⟩
        intro p hp
        rcases List.mem_append.1 hp with hp | hp
        · exact hA p hp
        · have hqmem : q ∈ s.nodes := by
            rw [hnodes, hBq]
            exact List.mem_append_right A (by simp)
          have hid : id < s.freshId := hq ▸ hb q hqmem
          simp only [List.mem_singleton] at hp
          subst hp
          omega

theorem insertLoop_spec (n : Nat) :
    ∀ (s : ListState α) (pos : Option Nat) (A B : List (Nat × α)) (v : α)
      (res : Option Nat), PosAt s pos A B → s.count < U64 →
      insertLoop s pos v res n =
        ({ s with nodes := (A ++ (List.range n).map (fun i => (s.freshId + i, v)) ++ B),
                  count := (s.count + n) % U64,
                  freshId := s.freshId + n },
         if n = 0 then res else some (s.freshId + n - 1)) := by
  induction n with
  | zero =>
      intro s pos A B v res h hc
      obtain ⟨hnodes, _, _⟩ := h
      simp [insertLoop, ← hnodes, Nat.mod_eq_of_lt hc]
  | succ k ih =>
      intro s pos A B v res h hc
      have hstep := insertNode_posAt s pos A B v h
      have h1 := posAt_next s pos A B v h
      have hc1 : incCount s.count < U64 := Nat.mod_lt _ U64_pos
      simp only [insertLoop, hstep]
      rw [ih _ pos (A ++ [(s.freshId, v)]) B v (some s.freshId) h1 hc1]
      have hrange : (List.range (k + 1)).map (fun i => (s.freshId + i, v)) =
          (s.freshId, v) :: (List.range k).map (fun i => (s.freshId + 1 + i, v)) := by
        rw [List.range_succ_eq_map, List.map_cons, List.map_map]
        simp only [Nat.add_zero, List.cons.injEq, true_and]
        apply List.map_congr_left
        intro a _
        simp only [Function.comp_apply, Prod.mk.injEq, and_true]
        omega
      refine Prod.ext ?_ ?_ <;> dsimp only
      · simp only [ListState.mk.injEq]
        refine ⟨?_, ?_, by omega, trivial⟩
        · rw [hrange]
          simp
        · simp only [incCount, Nat.mod_add_mod]
          congr 1
          omega
      · rw [if_neg (Nat.succ_ne_zero k)]
        rcases Nat.eq_zero_or_pos k with hk | hk
        · subst hk
          simp
        · rw [if_neg (by omega)]
          congr 1
          omega

/-- C10: with a valid iterator `pos` (either `end()` or a reference to the
node starting the chain suffix `B`), `insert(pos, n, value)` inserts exactly
`n` fresh copies of `value` immediately before `pos`, increases the size by
`n`, and returns `pos` itself when `n = 0`, otherwise an iterator to the
last copy inserted — the node immediately preceding `pos`. -/
theorem insert_multi_spec (s : ListState α) (pos : Option Nat) (n : Nat)
    (v : α) (A B : List (Nat × α)) (h : PosAt s pos A B)
    (hc : s.count + n < U64) :
    insertMulti s pos n v =
      ({ s with nodes := (A ++ (List.range n).map (fun i => (s.freshId + i, v)) ++ B),
                count := s.count + n,
                freshId := s.freshId + n },
       if n = 0 then pos else some (s.freshId + n - 1)) := by
  have hlt : s.count < U64 := by omega
  rw [insertMulti, insertLoop_spec n s pos A B v pos h hlt, Nat.mod_eq_of_lt hc]

/-- Witness for C10: inserting two copies of 7 before the node holding 20 in
the list `[10, 20]`. -/
theorem insert_multi_spec_witness :
    insertMulti exIns (some 1) 2 (7 : Int) =
      ({ exIns with
          nodes := ([(0, (10 : Int))] ++
            (List.range 2).map (fun i => (exIns.freshId + i, (7 : Int))) ++
            [(1, (20 : Int))]),
          count := exIns.count + 2,
          freshId := exIns.freshId + 2 },
       if 2 = 0 then some 1 else some (exIns.freshId + 2 - 1)) :=
  insert_multi_spec exIns (some 1) 2 7 [(0, 10)] [(1, 20)]
    ⟨rfl, by decide, by decide, (1, 20), [], rfl, rfl⟩ (by decide)

end Kuserspace
